import Mathlib

/-!
Shallow embedding of the activity-dependency resolver and the ordered-collection
reorder protocol of the SUDS maintenance web application.

The JavaScript source keeps two textually duplicated copies of each core
function (`getDisplayActivities`, `handleMoveSudsType`, `handleMoveCategory`,
`handleMoveActivityColumn`, `handleSaveDependencies`); the copies agree on all
logic modelled here (they differ only in role-check guards and in which
success popups they show), so a single Lean definition embeds both.

Modelling conventions:
* Machine integers are `Int`/`Nat`; JavaScript `indexOf` returning `-1` is kept
  as `Int` `-1` because the resolver's comparator subtracts the raw indexes.
* `Array.prototype.sort` is stable (ECMA-262) and the comparators used by the
  source are consistent (they compare integer keys), so the sorted result is
  the unique stable order; it is realized here by a stable insertion sort.
* JavaScript `Map`/`Set`/object lookups are realized by association lists.
* Effectful handlers are split into a pure part that computes the data the
  handler would persist (returning `none` exactly when the handler returns
  before issuing any write) and, where a claim needs it, a runner that applies
  the persistence layer's documented all-or-nothing batch semantics.
-/

/-- Maintenance Activity Record (`maintenanceActivities` document).  Fields the
modelled operations read or write; `lastUpdatedBy`, `timestamp` and `validatedBy`
are audit metadata never read by the modelled logic and are omitted. -/
structure Activity where
  id : String
  sudsTypeId : String
  category : String
  activityName : String
  applies : Bool
  dependentActivities : List String
  status : String := ""
  comment : String := ""
  frequency : String := ""
  involvedContracts : List String := []
  validationStatus : String := ""
  validatorComment : String := ""
deriving Repr, DecidableEq

/-- Installation type (`sudsTypes` document).  `order` is `none` when the
stored document lacks the field (JavaScript `undefined`). -/
structure SudsType where
  id : String
  name : String := ""
  order : Option Int := none
deriving Repr, DecidableEq

/-- JavaScript `Array.prototype.indexOf`: index of the first occurrence, `-1`
when absent. -/
def jsIndexOf (l : List String) (s : String) : Int :=
  match l.findIdx? (fun x => x == s) with
  | some n => (n : Int)
  | none => -1

/-- The `definedActivityNames` document: a JavaScript object mapping a category
name to its ordered list of activity names. -/
abbrev DefinedNames := List (String × List String)

/-- Object property lookup `definedActivityNames[c] || []`. -/
def lookupNames (d : DefinedNames) (c : String) : List String :=
  match d.find? (fun p => p.1 == c) with
  | some p => p.2
  | none => []

/-- The comparator passed to both `.sort` calls of `getDisplayActivities`
(top-level activities and each node's dependents use the same inline code):
primary key `categories.indexOf(category)`, secondary key
`(definedActivityNames[category] || []).indexOf(activityName)`, compared by
integer subtraction, with `indexOf` yielding `-1` for absent entries. -/
def activityCompare (cats : List String) (d : DefinedNames) (a b : Activity) : Int :=
  let categoryAIndex := jsIndexOf cats a.category
  let categoryBIndex := jsIndexOf cats b.category
  if categoryAIndex ≠ categoryBIndex then categoryAIndex - categoryBIndex
  else
    let activityIndexA := jsIndexOf (lookupNames d a.category) a.activityName
    let activityIndexB := jsIndexOf (lookupNames d b.category) b.activityName
    activityIndexA - activityIndexB

/-- Stable insertion of `a` in front of the first element it is `le` to. -/
def insertSorted (le : α → α → Bool) (a : α) : List α → List α
  | [] => [a]
  | b :: l => if le a b then a :: b :: l else b :: insertSorted le a l

/-- Stable sort; embeds `Array.prototype.sort(cmp)` via `le x y = cmp x y ≤ 0`. -/
def stableSort (le : α → α → Bool) : List α → List α
  | [] => []
  | a :: l => insertSorted le a (stableSort le l)

/-- Boolean form of the resolver's comparator, as used by the sorts. -/
def activityLe (cats : List String) (d : DefinedNames) (a b : Activity) : Bool :=
  decide (activityCompare cats d a b ≤ 0)

/-- The record set `getDisplayActivities` works on: records of the requested
installation type with `applies` set. -/
def sudsActivitiesOf (sudsId : String) (allMaintenanceActivities : List Activity) :
    List Activity :=
  allMaintenanceActivities.filter (fun act => act.sudsTypeId == sudsId && act.applies)

/-- Lookup in `activityMap = new Map(sudsActivities.map(act => [act.id, act]))`;
for a duplicated key a JavaScript `Map` keeps the last insertion. -/
def mapGet (sa : List Activity) (i : String) : Option Activity :=
  sa.reverse.find? (fun a => a.id == i)

/-- The `sortedDependents` computation inside `addActivityAndDependents`:
resolve each referenced id in `activityMap` (dropping unresolved ids, the
`.filter(Boolean)`), then sort by the shared comparator. -/
def sortedDependents (cats : List String) (d : DefinedNames) (sa : List Activity)
    (a : Activity) : List Activity :=
  stableSort (activityLe cats d) (a.dependentActivities.filterMap (mapGet sa))

/-- Count of map keys not yet in the emitted set; termination measure of the
depth-first walk. -/
def remaining (sa : List Activity) (processed : List String) : Nat :=
  ((sa.map (fun a => a.id)).filter (fun i => !processed.contains i)).length

theorem mapGet_mem {sa : List Activity} {i : String} {a : Activity}
    (h : mapGet sa i = some a) : a ∈ sa := by
  have := List.mem_of_find?_eq_some h
  simpa using this

theorem mapGet_id {sa : List Activity} {i : String} {a : Activity}
    (h : mapGet sa i = some a) : a.id = i := by
  have := List.find?_some h
  simpa using this

theorem insertSorted_perm (le : α → α → Bool) (a : α) (l : List α) :
    (insertSorted le a l).Perm (a :: l) := by
  induction l with
  | nil => simp [insertSorted]
  | cons b l ih =>
    simp only [insertSorted]
    split
    · exact List.Perm.refl _
    · exact (ih.cons b).trans (List.Perm.swap a b l)

theorem stableSort_perm (le : α → α → Bool) (l : List α) :
    (stableSort le l).Perm l := by
  induction l with
  | nil => simp [stableSort]
  | cons a l ih =>
    exact (insertSorted_perm le a (stableSort le l)).trans (ih.cons a)

theorem mem_stableSort (le : α → α → Bool) (l : List α) (a : α) :
    a ∈ stableSort le l ↔ a ∈ l :=
  (stableSort_perm le l).mem_iff

theorem sortedDependents_mem {cats : List String} {d : DefinedNames}
    {sa : List Activity} {a x : Activity}
    (h : x ∈ sortedDependents cats d sa a) : x ∈ sa := by
  rw [sortedDependents, mem_stableSort] at h
  obtain ⟨i, _, hx⟩ := List.mem_filterMap.mp h
  exact mapGet_mem hx

theorem sortedDependents_claimed {cats : List String} {d : DefinedNames}
    {sa : List Activity} {a x : Activity}
    (h : x ∈ sortedDependents cats d sa a) : x.id ∈ a.dependentActivities := by
  rw [sortedDependents, mem_stableSort] at h
  obtain ⟨i, hi, hx⟩ := List.mem_filterMap.mp h
  rwa [mapGet_id hx]

theorem length_filter_le_of_imp (p q : α → Bool) (l : List α)
    (h : ∀ x, q x = true → p x = true) :
    (l.filter q).length ≤ (l.filter p).length := by
  induction l with
  | nil => simp
  | cons y l ih =>
    by_cases hq : q y = true
    · simp [List.filter, hq, h y hq, Nat.succ_le_succ ih]
    · by_cases hp : p y = true
      · simp only [List.filter, hq, hp]
        simp only [Bool.not_eq_true] at hq
        simp [hq, hp]
        exact Nat.le_succ_of_le ih
      · simp only [Bool.not_eq_true] at hq hp
        simp [List.filter, hq, hp, ih]

theorem length_filter_lt_of_witness (p q : α → Bool) (l : List α)
    (himp : ∀ x, q x = true → p x = true)
    (x : α) (hx : x ∈ l) (hpx : p x = true) (hqx : q x = false) :
    (l.filter q).length < (l.filter p).length := by
  induction l with
  | nil => simp at hx
  | cons y l ih =>
    rcases List.mem_cons.mp hx with rfl | hmem
    · have hle : (l.filter q).length ≤ (l.filter p).length :=
        length_filter_le_of_imp p q l himp
      simp [List.filter, hpx, hqx]
      omega
    · by_cases hq : q y = true
      · simp only [List.filter, hq, himp y hq]
        exact Nat.succ_lt_succ (ih hmem)
      · by_cases hp : p y = true
        · simp only [Bool.not_eq_true] at hq
          simp [List.filter, hq, hp]
          exact Nat.lt_succ_of_lt (ih hmem)
        · simp only [Bool.not_eq_true] at hq hp
          simp [List.filter, hq, hp]
          exact ih hmem

theorem remaining_lt (sa : List Activity) (processed : List String) (a : Activity)
    (ha : a ∈ sa) (hnp : processed.contains a.id = false) :
    remaining sa (a.id :: processed) < remaining sa processed := by
  apply length_filter_lt_of_witness
  · intro x hx
    simp only [Bool.not_eq_true', List.contains_cons] at hx ⊢
    simp only [Bool.or_eq_false_iff] at hx
    exact hx.2
  · exact List.mem_map_of_mem _ ha
  · simpa using hnp
  · simp

/-- The depth-first walk of `addActivityAndDependents` as an explicit worklist:
pop the next scheduled `(activity, isDependent)` pair; a pair whose id is
already in `processedActivityIds` is skipped silently, otherwise it is pushed
onto `displayedOrder` and its sorted resolved dependents are scheduled (marked
`isDependent = true`) before the remaining work.  The proof argument `hp`
records that every scheduled record is one of the applicable records of the
installation type; it carries no data and only justifies termination. -/
def go (cats : List String) (d : DefinedNames) (sa : List Activity)
    (pending : List (Activity × Bool)) (processed : List String)
    (hp : ∀ p ∈ pending, p.1 ∈ sa) : List (Activity × Bool) :=
  match pending, hp with
  | [], _ => []
  | (a, dep) :: rest, hp =>
    if hproc : processed.contains a.id then
      go cats d sa rest processed (fun p hmem => hp p (List.mem_cons_of_mem _ hmem))
    else
      (a, dep) :: go cats d sa
        ((sortedDependents cats d sa a).map (fun x => (x, true)) ++ rest)
        (a.id :: processed)
        (by
          intro p hmem
          rcases List.mem_append.mp hmem with h | h
          · obtain ⟨x, hx, rfl⟩ := List.mem_map.mp h
            exact sortedDependents_mem hx
          · exact hp p (List.mem_cons_of_mem _ h))
termination_by (remaining sa processed, pending.length)
decreasing_by
  · apply Prod.Lex.right
    simp [Nat.lt_succ_self]
  · apply Prod.Lex.left
    exact remaining_lt sa processed a (hp (a, dep) (List.mem_cons_self _ _))
      (by simpa using hproc)

/-- Top-level activities: applicable records of the installation type whose id
is not in `allDependentIds`, the union of the `dependentActivities` of those
same records. -/
def topLevelActivitiesOf (sudsId : String) (allMaintenanceActivities : List Activity) :
    List Activity :=
  let sudsActivities := sudsActivitiesOf sudsId allMaintenanceActivities
  sudsActivities.filter
    (fun act => !(sudsActivities.any (fun b => b.dependentActivities.contains act.id)))

/-- Embedding of `getDisplayActivities(sudsId, allMaintenanceActivities,
categories, definedActivityNames)`: filter to the applicable records of the
installation type, mark as claimed every id referenced by some such record,
sort the unclaimed (top-level) records with the comparator, then emit each
root and, recursively, its dependents, skipping already-emitted ids.  Output
pairs are `(record, isDependent)`. -/
def getDisplayActivities (sudsId : String) (allMaintenanceActivities : List Activity)
    (cats : List String) (d : DefinedNames) : List (Activity × Bool) :=
  let sortedTop := stableSort (activityLe cats d)
    (topLevelActivitiesOf sudsId allMaintenanceActivities)
  go cats d (sudsActivitiesOf sudsId allMaintenanceActivities)
    (sortedTop.map (fun a => (a, false))) []
    (by
      intro p hmem
      obtain ⟨x, hx, rfl⟩ := List.mem_map.mp hmem
      rw [mem_stableSort] at hx
      exact List.mem_of_mem_filter hx)

/-- One `batch.update(doc(..., id), { order })` call issued by
`handleMoveSudsType`. -/
structure OrderWrite where
  id : String
  order : Int
deriving Repr, DecidableEq

/-- Swap of the adjacent elements at positions `i` and `i + 1` (both in range
whenever the callers' guards hold). -/
def swapAdjacent (l : List α) (i : Nat) : List α :=
  match l[i]?, l[i + 1]? with
  | some a, some b => (l.set i b).set (i + 1) a
  | _, _ => l

/-- The writes `handleMoveSudsType` puts in its batch: one `order := index`
update for every position whose record satisfies
`suds.order !== index || suds.order === undefined`. -/
def sudsOrderWrites (newSudsTypesOrder : List SudsType) : List OrderWrite :=
  (newSudsTypesOrder.enum.filter
    (fun p => p.2.order != some (p.1 : Int) || p.2.order == none)).map
    (fun p => { id := p.2.id, order := (p.1 : Int) })

/-- Pure part of `handleMoveSudsType(sudsId, direction, currentSudsTypes)`:
`none` when the handler returns before creating a batch (id not found, or a
boundary/unknown-direction no-op); otherwise the reordered list together with
the batch writes it commits. -/
def handleMoveSudsType (sudsId : String) (direction : String)
    (currentSudsTypes : List SudsType) : Option (List SudsType × List OrderWrite) :=
  match currentSudsTypes.findIdx? (fun s => s.id == sudsId) with
  | none => none
  | some currentIndex =>
    if direction == "up" && decide (currentIndex > 0) then
      let newSudsTypesOrder := swapAdjacent currentSudsTypes (currentIndex - 1)
      some (newSudsTypesOrder, sudsOrderWrites newSudsTypesOrder)
    else if direction == "down" && decide (currentIndex < currentSudsTypes.length - 1) then
      let newSudsTypesOrder := swapAdjacent currentSudsTypes currentIndex
      some (newSudsTypesOrder, sudsOrderWrites newSudsTypesOrder)
    else
      none

/-- JavaScript value slot of a persisted array element: `none` is `undefined`. -/
abbrev JsSlot (α : Type) := Option α

/-- The destructuring swap `[l[i+1], l[i]] = [l[i], l[i+1]]` as executed by the
`down`/`right` branches, including the out-of-range case the source does not
guard against: with `i = -1`, reading `l[-1]` yields `undefined` (so slot `0`
becomes `undefined`) and the write to `l[-1]` creates a non-index property that
is dropped when the array is serialized for persistence. -/
def jsMoveTowardEnd (l : List (JsSlot α)) (i : Int) : List (JsSlot α) :=
  if i < 0 then
    match l with
    | [] => []
    | _ :: rest => none :: rest
  else
    swapAdjacent l i.toNat

/-- Pure part of `handleMoveCategory(categoryToMove, direction)` over the
current `categories` list: `none` when the handler returns without writing,
otherwise the exact array value passed to `setDoc` for the
`maintenanceCategories` document. -/
def handleMoveCategory (categoryToMove : String) (direction : String)
    (categories : List String) : Option (List (JsSlot String)) :=
  let currentIndex := jsIndexOf categories categoryToMove
  let newCategories : List (JsSlot String) := categories.map some
  if direction == "up" && decide (currentIndex > 0) then
    some (swapAdjacent newCategories (currentIndex.toNat - 1))
  else if direction == "down" && decide (currentIndex < (categories.length : Int) - 1) then
    some (jsMoveTowardEnd newCategories currentIndex)
  else
    none

/-- Object update `{ ...m, [k]: v }`: replace the value of an existing key in
place, or append the key. -/
def setKey (m : List (String × β)) (k : String) (v : β) : List (String × β) :=
  if m.any (fun p => p.1 == k) then
    m.map (fun p => if p.1 == k then (k, v) else p)
  else
    m ++ [(k, v)]

/-- Pure part of `handleMoveActivityColumn(category, activityName, direction,
currentDefinedActivityNames)`: `none` when the handler returns without
writing, otherwise the full map value passed to `setDoc` for the
`definedActivityNames` document (unmodified categories keep their lists). -/
def handleMoveActivityColumn (category activityName : String) (direction : String)
    (currentDefinedActivityNames : DefinedNames) :
    Option (List (String × List (JsSlot String))) :=
  let currentCategoryActivities := lookupNames currentDefinedActivityNames category
  let currentIndex := jsIndexOf currentCategoryActivities activityName
  let newActivities : List (JsSlot String) := currentCategoryActivities.map some
  let lifted := currentDefinedActivityNames.map (fun p => (p.1, p.2.map some))
  if direction == "left" && decide (currentIndex > 0) then
    some (setKey lifted category (swapAdjacent newActivities (currentIndex.toNat - 1)))
  else if direction == "right" &&
      decide (currentIndex < (currentCategoryActivities.length : Int) - 1) then
    some (setKey lifted category (jsMoveTowardEnd newActivities currentIndex))
  else
    none

/-- Stored `order` fields of the `sudsTypes` collection, keyed by document id. -/
abbrev OrderStore := List (String × Int)

/-- Application of one committed `order` update to the stored documents
(`batch.update` touches only the named existing document). -/
def applyOrderWrite (store : OrderStore) (w : OrderWrite) : OrderStore :=
  store.map (fun p => if p.1 == w.id then (p.1, w.order) else p)

/-- Modelled from the spec: the persistence layer's `executeBatch` (Firestore
`writeBatch(...).commit()`, not part of this repository) is atomic
all-or-nothing — a committed batch applies every write, a rejected batch
applies none and leaves the stored documents untouched. -/
def executeBatch (store : OrderStore) (writes : List OrderWrite) (ok : Bool) :
    OrderStore :=
  if ok then writes.foldl applyOrderWrite store else store

/-- Observable outcome of running `handleMoveSudsType` against the persistence
layer: the stored `order` documents afterwards, whether the `catch` branch
reported an error to the caller, and the caller's in-memory list afterwards
(the handler never assigns to it; re-rendering happens only through the live
subscription). -/
structure MoveRunResult where
  store : OrderStore
  errorReported : Bool
  localSudsTypes : List SudsType
deriving Repr, DecidableEq

/-- Effectful run of `handleMoveSudsType`: when the pure part returns `none`
no batch is committed at all; otherwise the batch is committed with outcome
`commitOk`, and on rejection the `catch` branch surfaces the error via
`showCustomModal` while the stored documents stay as they were. -/
def runHandleMoveSudsType (sudsId : String) (direction : String)
    (localSudsTypes : List SudsType) (store : OrderStore) (commitOk : Bool) :
    MoveRunResult :=
  match handleMoveSudsType sudsId direction localSudsTypes with
  | none => { store := store, errorReported := false, localSudsTypes := localSudsTypes }
  | some (_, writes) =>
    { store := executeBatch store writes commitOk
      errorReported := !commitOk
      localSudsTypes := localSudsTypes }

/-- Modelled from the spec: a single-document `setDoc` (Firestore, not part of
this repository) either replaces the document value or fails leaving it
untouched. -/
def setDocValue (stored : α) (newValue : α) (ok : Bool) : α :=
  if ok then newValue else stored

/-- Effectful run of `handleMoveActivityColumn` against the stored
`definedActivityNames` document (initially holding the same map the handler
was given), with write outcome `commitOk`. -/
def runHandleMoveActivityColumn (category activityName : String) (direction : String)
    (currentDefinedActivityNames : DefinedNames) (commitOk : Bool) :
    List (String × List (JsSlot String)) × Bool :=
  let stored := currentDefinedActivityNames.map (fun p => (p.1, p.2.map some))
  match handleMoveActivityColumn category activityName direction
      currentDefinedActivityNames with
  | none => (stored, false)
  | some newValue => (setDocValue stored newValue commitOk, !commitOk)

/-- The activity the dependency modal was opened for
(`currentActivityForDependencies`); `id` is `none` when no Activity Record
exists yet for the `(sudsId, category, activityName)` triple. -/
structure CurrentActivity where
  sudsId : String
  activityName : String
  category : String
  id : Option String
deriving Repr, DecidableEq

/-- One write placed in the `handleSaveDependencies` batch.  `updateDeps` is
the `batch.update` replacing `dependentActivities` on the primary record,
`updateApplies` the `batch.update` forcing `applies: true` on an existing
referenced record, and `create` a `batch.set(doc(collection(...)), data)` on a
freshly generated document id. -/
inductive BatchOp where
  | updateDeps (id : String) (deps : List String)
  | updateApplies (id : String)
  | create (newId : String) (act : Activity)
deriving Repr, DecidableEq

/-- The record data `handleSaveDependencies` creates for a referenced id with
no existing record, from the three dash-separated parts of the id. -/
def newDependentActivityData (newId depSudsId depCategory depActivityName : String) :
    Activity :=
  { id := newId, sudsTypeId := depSudsId, category := depCategory,
    activityName := depActivityName, applies := true, dependentActivities := [],
    status := "", comment := "", frequency := "", involvedContracts := [],
    validationStatus := "pendiente", validatorComment := "" }

/-- The record data `handleSaveDependencies` creates when the primary activity
does not exist yet. -/
def newPrimaryActivityData (newId : String) (c : CurrentActivity)
    (deps : List String) : Activity :=
  { id := newId, sudsTypeId := c.sudsId, activityName := c.activityName,
    category := c.category, applies := true, dependentActivities := deps,
    status := "", comment := "", frequency := "", involvedContracts := [],
    validationStatus := "pendiente", validatorComment := "" }

/-- Character-level splitter realizing JavaScript `depId.split('-')` (same
behavior as `String.splitOn "-"`, defined structurally so that concrete
evaluations reduce in the kernel). -/
def splitDashAux : List Char → List Char → List String
  | [], acc => [String.mk acc.reverse]
  | c :: cs, acc =>
    if c = '-' then String.mk acc.reverse :: splitDashAux cs []
    else splitDashAux cs (c :: acc)

def jsSplitDash (s : String) : List String :=
  splitDashAux s.toList []

/-- The per-dependency loop of `handleSaveDependencies`: for each selected id,
an existing record with `applies = false` gets an `applies: true` update; a
missing record whose id splits into exactly three dash-separated parts gets a
brand-new record (under a fresh auto-generated id drawn from `freshIds`, the
way `doc(collection(...))` mints ids); any other id produces no write. -/
def depBatchOps (maintenanceActivities : List Activity) :
    List String → List String → List BatchOp
  | [], _ => []
  | depId :: rest, freshIds =>
    match maintenanceActivities.find? (fun act => act.id == depId) with
    | some dependentActivity =>
      if !dependentActivity.applies then
        BatchOp.updateApplies depId :: depBatchOps maintenanceActivities rest freshIds
      else
        depBatchOps maintenanceActivities rest freshIds
    | none =>
      let parts := jsSplitDash depId
      if parts.length == 3 then
        BatchOp.create (freshIds.headD "")
            (newDependentActivityData (freshIds.headD "") (parts.headD "")
              ((parts.drop 1).headD "") ((parts.drop 2).headD "")) ::
          depBatchOps maintenanceActivities rest freshIds.tail
      else
        depBatchOps maintenanceActivities rest freshIds

/-- Pure part of `handleSaveDependencies`: the batch it commits, or `none`
when `currentActivityForDependencies` is unset and the handler returns
immediately.  `freshIds` supplies the auto-generated document ids minted by
`doc(collection(...))` in call order. -/
def handleSaveDependencies (current : Option CurrentActivity)
    (selectedDependencies : List String) (maintenanceActivities : List Activity)
    (freshIds : List String) : Option (List BatchOp) :=
  match current with
  | none => none
  | some c =>
    match c.id with
    | some i =>
      some (BatchOp.updateDeps i selectedDependencies ::
        depBatchOps maintenanceActivities selectedDependencies freshIds)
    | none =>
      some (BatchOp.create (freshIds.headD "")
          (newPrimaryActivityData (freshIds.headD "") c selectedDependencies) ::
        depBatchOps maintenanceActivities selectedDependencies freshIds.tail)

/-- Application of one committed batch write to the `maintenanceActivities`
collection (a map by document id; `create` adds a document under its fresh
id). -/
def applyBatchOp (store : List Activity) : BatchOp → List Activity
  | BatchOp.updateDeps i deps =>
    store.map (fun a => if a.id == i then { a with dependentActivities := deps } else a)
  | BatchOp.updateApplies i =>
    store.map (fun a => if a.id == i then { a with applies := true } else a)
  | BatchOp.create _ act => store ++ [act]

/-- State of the collection after a successful atomic commit of the batch. -/
def applyBatch (store : List Activity) (ops : List BatchOp) : List Activity :=
  ops.foldl applyBatchOp store

/-- Ids of an emitted display list. -/
def displayIds (l : List (Activity × Bool)) : List String :=
  l.map (fun p => p.1.id)

theorem go_mem_processed_not_out (cats : List String) (d : DefinedNames)
    (sa : List Activity) (pending : List (Activity × Bool)) (processed : List String)
    (hp : ∀ p ∈ pending, p.1 ∈ sa) :
    ∀ i ∈ processed, i ∉ displayIds (go cats d sa pending processed hp) := by
  induction pending, processed, hp using go.induct cats d sa with
  | case1 processed hp1 hp2 =>
    simp [go, displayIds]
  | case2 processed a dep rest hp1 hproc hp ih =>
    intro i hi
    rw [go]
    simp only [hproc, dif_pos]
    exact ih i hi
  | case3 processed a dep rest hp1 hproc hp ih =>
    intro i hi
    rw [go, dif_neg hproc]
    simp only [displayIds, List.map_cons, List.mem_cons, not_or]
    constructor
    · intro heq
      rw [heq] at hi
      exact hproc (by simpa using hi)
    · exact ih i (List.mem_cons_of_mem _ hi)

theorem go_nodup (cats : List String) (d : DefinedNames) (sa : List Activity)
    (pending : List (Activity × Bool)) (processed : List String)
    (hp : ∀ p ∈ pending, p.1 ∈ sa) :
    (displayIds (go cats d sa pending processed hp)).Nodup := by
  induction pending, processed, hp using go.induct cats d sa with
  | case1 processed hp1 hp2 =>
    simp [go, displayIds]
  | case2 processed a dep rest hp1 hproc hp ih =>
    rw [go]
    simp only [hproc, dif_pos]
    exact ih
  | case3 processed a dep rest hp1 hproc hp ih =>
    rw [go, dif_neg hproc]
    simp only [displayIds, List.map_cons, List.nodup_cons]
    refine ⟨?_, ih⟩
    exact go_mem_processed_not_out cats d sa _ _ _ a.id (List.mem_cons_self _ _)

theorem go_out_cases (cats : List String) (d : DefinedNames) (sa : List Activity)
    (pending : List (Activity × Bool)) (processed : List String)
    (hp : ∀ p ∈ pending, p.1 ∈ sa) :
    ∀ p ∈ go cats d sa pending processed hp,
      p ∈ pending ∨ (p.2 = true ∧ ∃ b, b ∈ sa ∧ p.1 ∈ sortedDependents cats d sa b) := by
  induction pending, processed, hp using go.induct cats d sa with
  | case1 processed hp1 hp2 =>
    simp [go]
  | case2 processed a dep rest hp1 hproc hp ih =>
    intro p hmem
    rw [go] at hmem
    simp only [hproc, dif_pos] at hmem
    rcases ih p hmem with h | h
    · exact Or.inl (List.mem_cons_of_mem _ h)
    · exact Or.inr h
  | case3 processed a dep rest hp1 hproc hp ih =>
    intro p hmem
    rw [go, dif_neg hproc] at hmem
    rcases List.mem_cons.mp hmem with rfl | hmem
    · exact Or.inl (List.mem_cons_self _ _)
    · rcases ih p hmem with h | h
      · rcases List.mem_append.mp h with h | h
        · obtain ⟨x, hx, rfl⟩ := List.mem_map.mp h
          exact Or.inr ⟨rfl, a, hp (a, dep) (List.mem_cons_self _ _), hx⟩
        · exact Or.inl (List.mem_cons_of_mem _ h)
      · exact Or.inr h

theorem go_complete (cats : List String) (d : DefinedNames) (sa : List Activity)
    (pending : List (Activity × Bool)) (processed : List String)
    (hp : ∀ p ∈ pending, p.1 ∈ sa) :
    ∀ p ∈ pending, processed.contains p.1.id = false →
      p.1.id ∈ displayIds (go cats d sa pending processed hp) := by
  induction pending, processed, hp using go.induct cats d sa with
  | case1 processed hp1 hp2 =>
    simp
  | case2 processed a dep rest hp1 hproc hp ih =>
    intro p hmem hnp
    rw [go]
    simp only [hproc, dif_pos]
    rcases List.mem_cons.mp hmem with rfl | hmem
    · simp only at hnp
      rw [hproc] at hnp
      cases hnp
    · exact ih p hmem hnp
  | case3 processed a dep rest hp1 hproc hp ih =>
    intro p hmem hnp
    rw [go, dif_neg hproc]
    simp only [displayIds, List.map_cons, List.mem_cons]
    rcases List.mem_cons.mp hmem with rfl | hmem
    · exact Or.inl rfl
    · by_cases hsame : p.1.id = a.id
      · exact Or.inl hsame
      · refine Or.inr ?_
        refine ih p (List.mem_append_right _ hmem) ?_
        simp only [List.contains_cons, Bool.or_eq_false_iff]
        exact ⟨by simpa using hsame, hnp⟩

theorem go_mem_sa (cats : List String) (d : DefinedNames) (sa : List Activity)
    (pending : List (Activity × Bool)) (processed : List String)
    (hp : ∀ p ∈ pending, p.1 ∈ sa) :
    ∀ p ∈ go cats d sa pending processed hp, p.1 ∈ sa := by
  intro p hmem
  rcases go_out_cases cats d sa pending processed hp p hmem with h | ⟨_, b, _, hx⟩
  · exact hp p h
  · exact sortedDependents_mem hx

theorem go_closure (cats : List String) (d : DefinedNames) (sa : List Activity)
    (pending : List (Activity × Bool)) (processed : List String)
    (hp : ∀ p ∈ pending, p.1 ∈ sa) :
    ∀ p ∈ go cats d sa pending processed hp,
      ∀ x ∈ sortedDependents cats d sa p.1,
        x.id ∈ displayIds (go cats d sa pending processed hp) ∨ x.id ∈ processed := by
  induction pending, processed, hp using go.induct cats d sa with
  | case1 processed hp1 hp2 =>
    simp [go]
  | case2 processed a dep rest hp1 hproc hp ih =>
    intro p hmem x hx
    rw [go] at hmem ⊢
    simp only [hproc, dif_pos] at hmem ⊢
    exact ih p hmem x hx
  | case3 processed a dep rest hp1 hproc hp ih =>
    intro p hmem x hx
    rw [go, dif_neg hproc] at hmem ⊢
    simp only [displayIds, List.map_cons, List.mem_cons]
    rcases List.mem_cons.mp hmem with rfl | hmem
    · by_cases hid : x.id ∈ (a.id :: processed)
      · rcases List.mem_cons.mp hid with h | h
        · exact Or.inl (Or.inl h)
        · exact Or.inr h
      · left
        right
        refine go_complete cats d sa _ _ _ (x, true) ?_ ?_
        · exact List.mem_append_left _ (List.mem_map_of_mem _ hx)
        · simpa using hid
    · rcases ih p hmem x hx with h | h
      · exact Or.inl (Or.inr h)
      · rcases List.mem_cons.mp h with h | h
        · exact Or.inl (Or.inl h)
        · exact Or.inr h

theorem jsIndexOf_eq_neg_one {l : List String} {s : String} (h : s ∉ l) :
    jsIndexOf l s = -1 := by
  rw [jsIndexOf]
  have : l.findIdx? (fun x => x == s) = none := by
    rw [List.findIdx?_eq_none_iff]
    intro x hx
    simp only [beq_eq_false_iff_ne, ne_eq]
    intro heq
    exact h (heq ▸ hx)
  rw [this]

theorem jsIndexOf_nonneg {l : List String} {s : String} (h : s ∈ l) :
    0 ≤ jsIndexOf l s := by
  rw [jsIndexOf]
  cases hfind : l.findIdx? (fun x => x == s) with
  | none =>
    rw [List.findIdx?_eq_none_iff] at hfind
    have := hfind s h
    simp at this
  | some n => simp

theorem mapGet_eq_of_nodup {sa : List Activity}
    (h : (sa.map (fun a => a.id)).Nodup) {a : Activity} (ha : a ∈ sa) :
    mapGet sa a.id = some a := by
  have hinj : ∀ x ∈ sa, ∀ y ∈ sa, x.id = y.id → x = y :=
    List.inj_on_of_nodup_map h
  rw [mapGet]
  cases hfind : sa.reverse.find? (fun x => x.id == a.id) with
  | none =>
    rw [List.find?_eq_none] at hfind
    have := hfind a (by simpa using ha)
    simp at this
  | some b =>
    have hb : b ∈ sa := by
      have := List.mem_of_find?_eq_some hfind
      simpa using this
    have hbid : b.id = a.id := by
      have := List.find?_some hfind
      simpa using this
    rw [hinj b hb a ha hbid]

theorem go_congr (cats : List String) (d : DefinedNames) (sa : List Activity)
    {pend1 pend2 : List (Activity × Bool)} {processed : List String}
    (h : pend1 = pend2) (hp1 : ∀ p ∈ pend1, p.1 ∈ sa) :
    go cats d sa pend1 processed hp1 = go cats d sa pend2 processed (h ▸ hp1) := by
  subst h
  rfl

theorem go_adjacent (cats : List String) (d : DefinedNames) (sa : List Activity)
    (X Y : Activity)
    (hXY : X.id ≠ Y.id)
    (hdeps : sortedDependents cats d sa X = [Y])
    (hOnlyX : ∀ b ∈ sa, Y.id ∈ b.dependentActivities → b.id = X.id)
    (hXunclaimed : ∀ b ∈ sa, X.id ∉ b.dependentActivities) :
    ∀ pending processed hp,
      (X, false) ∈ pending →
      (∀ p ∈ pending, p.1.id = X.id → p = (X, false)) →
      (∀ p ∈ pending, p.1.id ≠ Y.id) →
      X.id ∉ processed → Y.id ∉ processed →
      ∃ l1 l2, go cats d sa pending processed hp =
        l1 ++ (X, false) :: (Y, true) :: l2 := by
  intro pending processed hp
  induction pending, processed, hp using go.induct cats d sa with
  | case1 processed hp1 hp2 =>
    intro hXpend _ _ _ _
    simp at hXpend
  | case2 processed a dep rest hp1 hproc hp ih =>
    intro hXpend hXuniq hnoY hXp hYp
    rw [go]
    simp only [hproc, dif_pos]
    have hXrest : (X, false) ∈ rest := by
      rcases List.mem_cons.mp hXpend with heq | hmem
      · exfalso
        have : a.id = X.id := by
          have := congrArg (fun p => (Prod.fst p).id) heq.symm
          simpa using this
        rw [this] at hproc
        exact hXp (by simpa using hproc)
      · exact hmem
    exact ih hXrest (fun p hmem h => hXuniq p (List.mem_cons_of_mem _ hmem) h)
      (fun p hmem => hnoY p (List.mem_cons_of_mem _ hmem)) hXp hYp
  | case3 processed a dep rest hp1 hproc hp ih =>
    intro hXpend hXuniq hnoY hXp hYp
    rw [go, dif_neg hproc]
    by_cases hisX : a.id = X.id
    · have hpair : (a, dep) = (X, false) :=
        hXuniq (a, dep) (List.mem_cons_self _ _) hisX
      have ha : a = X := congrArg Prod.fst hpair
      have hdep : dep = false := congrArg Prod.snd hpair
      subst ha hdep
      have hEq : (sortedDependents cats d sa a).map (fun x => (x, true)) ++ rest =
          (Y, true) :: rest := by
        rw [hdeps]
        rfl
      rw [go_congr cats d sa hEq]
      have hYproc : ((a.id :: processed).contains Y.id) = false := by
        simp only [List.contains_cons, Bool.or_eq_false_iff]
        constructor
        · simpa using fun h => hXY h.symm
        · simpa using hYp
      rw [go, dif_neg (by rw [hYproc]; simp)]
      exact ⟨[], _, rfl⟩
    · have hXrest : (X, false) ∈ rest := by
        rcases List.mem_cons.mp hXpend with heq | hmem
        · exfalso
          apply hisX
          have := congrArg (fun p => (Prod.fst p).id) heq.symm
          simpa using this
        · exact hmem
      have hdepsOk : ∀ p ∈ (sortedDependents cats d sa a).map (fun x => (x, true)),
          p.1.id ≠ X.id ∧ p.1.id ≠ Y.id := by
        intro p hmem
        obtain ⟨x, hx, rfl⟩ := List.mem_map.mp hmem
        have hxid : x.id ∈ a.dependentActivities := sortedDependents_claimed hx
        have hamem : a ∈ sa := hp1 (a, dep) (List.mem_cons_self _ _)
        constructor
        · intro heq
          exact hXunclaimed a hamem (heq ▸ hxid)
        · intro heq
          exact hisX (hOnlyX a hamem (heq ▸ hxid))
      obtain ⟨l1, l2, heq⟩ := ih
        (List.mem_append_right _ hXrest)
        (by
          intro p hmem hid
          rcases List.mem_append.mp hmem with h | h
          · exact absurd hid (hdepsOk p h).1
          · exact hXuniq p (List.mem_cons_of_mem _ h) hid)
        (by
          intro p hmem
          rcases List.mem_append.mp hmem with h | h
          · exact (hdepsOk p h).2
          · exact hnoY p (List.mem_cons_of_mem _ h))
        (by
          intro hmem
          rcases List.mem_cons.mp hmem with h | h
          · exact hisX h.symm
          · exact hXp h)
        (by
          intro hmem
          rcases List.mem_cons.mp hmem with h | h
          · exact hnoY (a, dep) (List.mem_cons_self _ _) h.symm
          · exact hYp h)
      exact ⟨(a, dep) :: l1, l2, by rw [heq, List.cons_append]⟩

theorem contains_iff_mem [BEq α] [LawfulBEq α] {l : List α} {a : α} :
    l.contains a = true ↔ a ∈ l := List.elem_iff

theorem mem_sudsActivitiesOf {sudsId : String} {all : List Activity} {a : Activity} :
    a ∈ sudsActivitiesOf sudsId all ↔
      a ∈ all ∧ a.sudsTypeId = sudsId ∧ a.applies = true := by
  rw [sudsActivitiesOf, List.mem_filter]
  simp [and_assoc]

theorem mem_topLevelActivitiesOf {sudsId : String} {all : List Activity} {a : Activity} :
    a ∈ topLevelActivitiesOf sudsId all ↔
      a ∈ sudsActivitiesOf sudsId all ∧
        ∀ b ∈ sudsActivitiesOf sudsId all, a.id ∉ b.dependentActivities := by
  rw [topLevelActivitiesOf]
  simp only [List.mem_filter, Bool.not_eq_true', List.any_eq_false]
  constructor
  · rintro ⟨hmem, hno⟩
    refine ⟨hmem, fun b hb hcon => ?_⟩
    exact hno b hb (contains_iff_mem.mpr hcon)
  · rintro ⟨hmem, hno⟩
    refine ⟨hmem, fun b hb => ?_⟩
    intro hcon
    exact hno b hb (contains_iff_mem.mp hcon)

theorem getDisplayActivities_eq_go (sudsId : String) (all : List Activity)
    (cats : List String) (d : DefinedNames) :
    ∃ hp, getDisplayActivities sudsId all cats d =
      go cats d (sudsActivitiesOf sudsId all)
        ((stableSort (activityLe cats d) (topLevelActivitiesOf sudsId all)).map
          (fun a => (a, false))) [] hp :=
  ⟨_, rfl⟩

/-- Concrete records used by witnesses and counterexamples below.  Each pair
or triple realizes one scenario from the testable properties of the spec. -/
def cycA : Activity :=
  { id := "A", sudsTypeId := "s", category := "c", activityName := "a1",
    applies := true, dependentActivities := ["B"] }

def cycB : Activity :=
  { id := "B", sudsTypeId := "s", category := "c", activityName := "a2",
    applies := true, dependentActivities := ["A"] }

def rootA : Activity :=
  { id := "A", sudsTypeId := "s", category := "c", activityName := "a1",
    applies := true, dependentActivities := ["B"] }

def depB : Activity :=
  { id := "B", sudsTypeId := "s", category := "c", activityName := "a2",
    applies := true, dependentActivities := [] }

/-- Claim C2: for every input, the resolver terminates — in this embedding
`go`, the depth-first walk with the `processedActivityIds` guard, is a total
function defined by well-founded recursion on the number of applicable-record
ids not yet emitted, which is exactly the source's termination argument — and
it never emits the same Activity Record id twice, even when the
`dependentActivities` edges among the applicable records form a cycle (the
statement quantifies over all record sets, cyclic ones included). -/
theorem c2_resolver_terminates_and_never_duplicates (sudsId : String)
    (all : List Activity) (cats : List String) (d : DefinedNames) :
    (displayIds (getDisplayActivities sudsId all cats d)).Nodup :=
  go_nodup cats d (sudsActivitiesOf sudsId all) _ [] _

/-- Claim C1 (counterexample): with two applicable records of installation type
`s` that name each other as dependents (a two-cycle), the resolver output is
empty, so the applicable record `cycA` is dropped — refuting the claim that
every `applies = true` record of the installation type appears in the
output. -/
theorem c1_counterexample :
    getDisplayActivities "s" [cycA, cycB] ["c"] [] = [] ∧ cycA.applies = true := by
  constructor
  · simp [getDisplayActivities, go, sudsActivitiesOf, topLevelActivitiesOf,
      stableSort, insertSorted, cycA, cycB]
  · rfl

/-- Claim C1 (amended): every record the resolver emits is an `applies = true`
record of the installation type; no id is emitted twice; every applicable
record not claimed as a dependent by any applicable record of the type (a
top-level root) is emitted; and every resolved dependent of an emitted record
is emitted — but an applicable record reachable only through dependency cycles
with no top-level entry point can be dropped (see the counterexample). -/
theorem c1_amended_resolver_output (sudsId : String) (all : List Activity)
    (cats : List String) (d : DefinedNames) :
    (∀ p ∈ getDisplayActivities sudsId all cats d,
        p.1 ∈ all ∧ p.1.sudsTypeId = sudsId ∧ p.1.applies = true) ∧
    (displayIds (getDisplayActivities sudsId all cats d)).Nodup ∧
    (∀ a ∈ topLevelActivitiesOf sudsId all,
        a.id ∈ displayIds (getDisplayActivities sudsId all cats d)) ∧
    (∀ p ∈ getDisplayActivities sudsId all cats d,
        ∀ x ∈ sortedDependents cats d (sudsActivitiesOf sudsId all) p.1,
          x.id ∈ displayIds (getDisplayActivities sudsId all cats d)) := by
  refine ⟨?_, ?_, ?_, ?_⟩
  · intro p hp
    have := go_mem_sa cats d (sudsActivitiesOf sudsId all) _ [] _ p hp
    exact mem_sudsActivitiesOf.mp this
  · exact go_nodup cats d (sudsActivitiesOf sudsId all) _ [] _
  · intro a ha
    refine go_complete cats d (sudsActivitiesOf sudsId all) _ [] _ (a, false) ?_ ?_
    · exact List.mem_map_of_mem _ ((mem_stableSort _ _ _).mpr ha)
    · rfl
  · intro p hp x hx
    have := go_closure cats d (sudsActivitiesOf sudsId all) _ [] _ p hp x hx
    rcases this with h | h
    · exact h
    · simp at h

/-- Claim C1 (amended) witness at a concrete input: a root with one dependent;
the first two conjuncts of the amended claim instantiated there. -/
theorem c1_amended_resolver_output_witness :
    (∀ p ∈ getDisplayActivities "s" [rootA, depB] ["c"] [],
        p.1 ∈ [rootA, depB] ∧ p.1.sudsTypeId = "s" ∧ p.1.applies = true) ∧
    (displayIds (getDisplayActivities "s" [rootA, depB] ["c"] [])).Nodup := by
  have h := c1_amended_resolver_output "s" [rootA, depB] ["c"] []
  exact ⟨h.1, h.2.1⟩

/-- Claim C5: an applicable record that no applicable record of its
installation type claims as a dependent (for instance because its only
referrer was marked `applies = false` and so vanished from the filtered input
set) is emitted by the resolver as a top-level root with
`isDependent = false`, and every output entry carrying its id is exactly that
root entry — the orphan is promoted, not dropped. -/
theorem c5_orphan_promotion (sudsId : String) (all : List Activity)
    (cats : List String) (d : DefinedNames) (Y : Activity)
    (hNodup : ((sudsActivitiesOf sudsId all).map (fun a => a.id)).Nodup)
    (hY : Y ∈ sudsActivitiesOf sudsId all)
    (hUnclaimed : ∀ b ∈ sudsActivitiesOf sudsId all, Y.id ∉ b.dependentActivities) :
    (Y, false) ∈ getDisplayActivities sudsId all cats d ∧
      ∀ p ∈ getDisplayActivities sudsId all cats d, p.1.id = Y.id → p = (Y, false) := by
  have hinj : ∀ x ∈ sudsActivitiesOf sudsId all, ∀ y ∈ sudsActivitiesOf sudsId all,
      x.id = y.id → x = y := List.inj_on_of_nodup_map hNodup
  have hYtop : Y ∈ topLevelActivitiesOf sudsId all :=
    mem_topLevelActivitiesOf.mpr ⟨hY, hUnclaimed⟩
  have huniq : ∀ p ∈ getDisplayActivities sudsId all cats d,
      p.1.id = Y.id → p = (Y, false) := by
    intro p hp hid
    rcases go_out_cases cats d (sudsActivitiesOf sudsId all) _ [] _ p hp with
      hpend | ⟨_, b, hb, hx⟩
    · obtain ⟨x, hx, rfl⟩ := List.mem_map.mp hpend
      rw [mem_stableSort] at hx
      have hxsa : x ∈ sudsActivitiesOf sudsId all :=
        (mem_topLevelActivitiesOf.mp hx).1
      have : x = Y := hinj x hxsa Y hY hid
      rw [this]
    · exfalso
      have hclaim : p.1.id ∈ b.dependentActivities := sortedDependents_claimed hx
      rw [hid] at hclaim
      exact hUnclaimed b hb hclaim
  refine ⟨?_, huniq⟩
  have hidmem : Y.id ∈ displayIds (getDisplayActivities sudsId all cats d) := by
    refine go_complete cats d (sudsActivitiesOf sudsId all) _ [] _ (Y, false) ?_ rfl
    exact List.mem_map_of_mem _ ((mem_stableSort _ _ _).mpr hYtop)
  obtain ⟨p, hp, hpid⟩ := List.mem_map.mp hidmem
  have := huniq p hp hpid
  rwa [this] at hp

/-- Records for the C5 witness: `orphX` is not applicable (and is the only
referrer of `orphY`), so the filtered record set contains only `orphY`. -/
def orphX : Activity :=
  { id := "X", sudsTypeId := "s", category := "c", activityName := "a1",
    applies := false, dependentActivities := ["Y"] }

def orphY : Activity :=
  { id := "Y", sudsTypeId := "s", category := "c", activityName := "a2",
    applies := true, dependentActivities := [] }

/-- Claim C5 witness: with `orphX` marked `applies = false`, its former
dependent `orphY` is emitted as a top-level root. -/
theorem c5_orphan_promotion_witness :
    (orphY, false) ∈ getDisplayActivities "s" [orphX, orphY] ["c"] [] :=
  (c5_orphan_promotion "s" [orphX, orphY] ["c"] [] orphY (by decide) (by decide)
    (by decide)).1

/-- Records for the C3 counterexample: `catKnownRec` has a category listed in
the category order, `catUnknownRec` does not. -/
def catKnownRec : Activity :=
  { id := "A", sudsTypeId := "s", category := "Limpieza", activityName := "a1",
    applies := true, dependentActivities := [] }

def catUnknownRec : Activity :=
  { id := "B", sudsTypeId := "s", category := "ZZZ", activityName := "a2",
    applies := true, dependentActivities := [] }

/-- Claim C3 (counterexample): a record whose category is absent from the
category order sorts FIRST, not last — `indexOf` yields `-1` for it, which the
subtraction comparator places before every present category (index `≥ 0`).
The resolver therefore emits the unknown-category record `catUnknownRec`
before `catKnownRec`, refuting the claimed unknown-sorts-last ordering. -/
theorem c3_counterexample :
    displayIds (getDisplayActivities "s" [catKnownRec, catUnknownRec]
        ["Limpieza"] []) = ["B", "A"] ∧
      catUnknownRec.category ∉ ["Limpieza"] := by
  constructor
  · simp [getDisplayActivities, go, sudsActivitiesOf, topLevelActivitiesOf,
      stableSort, insertSorted, activityLe, activityCompare, jsIndexOf,
      lookupNames, sortedDependents, mapGet, displayIds, catKnownRec, catUnknownRec]
  · decide

/-- Claim C3 (amended): the resolver's comparator realizes the lexicographic
order on the pair (index of `category` in the category order, index of
`activityName` in that category's definition order) where an absent category
or name gets index `-1` and therefore sorts FIRST (ties keep original
encounter order, since the sort is stable); and each node's dependents are
ordered by this same comparator. -/
theorem c3_amended_comparator_semantics (cats : List String) (d : DefinedNames)
    (sa : List Activity) (a b x : Activity) :
    (activityCompare cats d a b < 0 ↔
      (jsIndexOf cats a.category < jsIndexOf cats b.category ∨
        (jsIndexOf cats a.category = jsIndexOf cats b.category ∧
          jsIndexOf (lookupNames d a.category) a.activityName <
            jsIndexOf (lookupNames d b.category) b.activityName))) ∧
    (a.category ∉ cats → b.category ∈ cats → activityCompare cats d a b < 0) ∧
    (sortedDependents cats d sa x =
      stableSort (activityLe cats d) (x.dependentActivities.filterMap (mapGet sa))) := by
  refine ⟨?_, ?_, rfl⟩
  · simp only [activityCompare]
    split_ifs with hne
    · omega
    · omega
  · intro ha hb
    have h1 : jsIndexOf cats a.category = -1 := jsIndexOf_eq_neg_one ha
    have h2 : 0 ≤ jsIndexOf cats b.category := jsIndexOf_nonneg hb
    simp only [activityCompare]
    split_ifs with hne
    · omega
    · omega

/-- Claim C3 (amended) witness: concrete comparator evaluations — a record
with an absent category compares below one with a present category. -/
theorem c3_amended_comparator_semantics_witness :
    catUnknownRec.category ∉ ["Limpieza"] ∧ catKnownRec.category ∈ ["Limpieza"] ∧
      activityCompare ["Limpieza"] [] catUnknownRec catKnownRec < 0 :=
  ⟨by decide, by decide,
    (c3_amended_comparator_semantics ["Limpieza"] [] [] catUnknownRec catKnownRec
      catKnownRec).2.1 (by decide) (by decide)⟩

/-- Records for the C4 counterexample: root `nestX` references two dependents
`nestZ` and `nestY`; `nestZ` sorts before `nestY` in the definition order. -/
def nestX : Activity :=
  { id := "X", sudsTypeId := "s", category := "c", activityName := "ax",
    applies := true, dependentActivities := ["Z", "Y"] }

def nestZ : Activity :=
  { id := "Z", sudsTypeId := "s", category := "c", activityName := "az",
    applies := true, dependentActivities := [] }

def nestY : Activity :=
  { id := "Y", sudsTypeId := "s", category := "c", activityName := "ay",
    applies := true, dependentActivities := [] }

/-- Claim C4 (counterexample): the claim's hypotheses hold — `nestX` is a
top-level root, its `dependentActivities` contains the id of applicable
`nestY`, and no other applicable record references `nestY` — yet the output is
`[X, Z, Y]`: `nestX` is NOT immediately followed by `nestY`, because `nestX`
has another dependent `nestZ` that the comparator places first. -/
theorem c4_counterexample :
    getDisplayActivities "s" [nestX, nestZ, nestY] ["c"] [("c", ["ax", "az", "ay"])] =
      [(nestX, false), (nestZ, true), (nestY, true)] ∧
    nestY.id ∈ nestX.dependentActivities ∧
    (∀ b ∈ [nestX, nestZ, nestY], b ≠ nestX → nestY.id ∉ b.dependentActivities) := by
  refine ⟨?_, by decide, by decide⟩
  simp [getDisplayActivities, go, sudsActivitiesOf, topLevelActivitiesOf,
    stableSort, insertSorted, activityLe, activityCompare, jsIndexOf,
    lookupNames, sortedDependents, mapGet, nestX, nestZ, nestY]

/-- Claim C4 (amended): if applicable record `X` is a top-level root whose
`dependentActivities` is exactly `[Y.id]` for applicable record `Y` of the
same installation type, and no applicable record other than `X` references
`Y`, then the output contains `X` (marked `isDependent = false`) immediately
followed by `Y` (marked `isDependent = true`), and every output entry with
`Y`'s id is marked as a dependent — `Y` never appears as a top-level entry.
(The original claim, which only required `X`'s dependents to CONTAIN `Y.id`,
fails when another dependent of `X` sorts before `Y`; see the
counterexample.) -/
theorem c4_amended_dependent_nesting (sudsId : String) (all : List Activity)
    (cats : List String) (d : DefinedNames) (X Y : Activity)
    (hNodup : ((sudsActivitiesOf sudsId all).map (fun a => a.id)).Nodup)
    (hX : X ∈ sudsActivitiesOf sudsId all)
    (hY : Y ∈ sudsActivitiesOf sudsId all)
    (hXdeps : X.dependentActivities = [Y.id])
    (hXunclaimed : ∀ b ∈ sudsActivitiesOf sudsId all, X.id ∉ b.dependentActivities)
    (hOnlyX : ∀ b ∈ sudsActivitiesOf sudsId all,
        Y.id ∈ b.dependentActivities → b.id = X.id) :
    (∃ l1 l2, getDisplayActivities sudsId all cats d =
        l1 ++ (X, false) :: (Y, true) :: l2) ∧
    (∀ p ∈ getDisplayActivities sudsId all cats d, p.1.id = Y.id → p.2 = true) := by
  have hinj : ∀ x ∈ sudsActivitiesOf sudsId all, ∀ y ∈ sudsActivitiesOf sudsId all,
      x.id = y.id → x = y := List.inj_on_of_nodup_map hNodup
  have hXY : X.id ≠ Y.id := by
    intro heq
    apply hXunclaimed X hX
    rw [hXdeps]
    exact heq ▸ List.mem_singleton_self _
  have hdeps : sortedDependents cats d (sudsActivitiesOf sudsId all) X = [Y] := by
    have hmg : mapGet (sudsActivitiesOf sudsId all) Y.id = some Y :=
      mapGet_eq_of_nodup hNodup hY
    rw [sortedDependents, hXdeps]
    simp [List.filterMap, hmg, stableSort, insertSorted]
  have hXtop : X ∈ topLevelActivitiesOf sudsId all :=
    mem_topLevelActivitiesOf.mpr ⟨hX, hXunclaimed⟩
  have hnoY : ∀ p ∈ (stableSort (activityLe cats d)
      (topLevelActivitiesOf sudsId all)).map (fun a => (a, false)),
      p.1.id ≠ Y.id := by
    intro p hp heq
    obtain ⟨x, hx, rfl⟩ := List.mem_map.mp hp
    rw [mem_stableSort] at hx
    have hxun := (mem_topLevelActivitiesOf.mp hx).2 X hX
    apply hxun
    rw [hXdeps]
    simp only [List.mem_singleton]
    exact heq
  have hXuniq : ∀ p ∈ (stableSort (activityLe cats d)
      (topLevelActivitiesOf sudsId all)).map (fun a => (a, false)),
      p.1.id = X.id → p = (X, false) := by
    intro p hp heq
    obtain ⟨x, hx, rfl⟩ := List.mem_map.mp hp
    rw [mem_stableSort] at hx
    have hxsa : x ∈ sudsActivitiesOf sudsId all := (mem_topLevelActivitiesOf.mp hx).1
    rw [hinj x hxsa X hX heq]
  have hXpend : (X, false) ∈ (stableSort (activityLe cats d)
      (topLevelActivitiesOf sudsId all)).map (fun a => (a, false)) :=
    List.mem_map_of_mem _ ((mem_stableSort _ _ _).mpr hXtop)
  constructor
  · exact go_adjacent cats d (sudsActivitiesOf sudsId all) X Y hXY hdeps hOnlyX
      hXunclaimed _ [] _ hXpend hXuniq hnoY (List.not_mem_nil _) (List.not_mem_nil _)
  · intro p hp heq
    rcases go_out_cases cats d (sudsActivitiesOf sudsId all) _ [] _ p hp with
      hpend | ⟨hflag, _⟩
    · exact absurd heq (hnoY p hpend)
    · exact hflag

/-- Records for the C4 witness: `adjX` has exactly one dependent `adjY`. -/
def adjX : Activity :=
  { id := "X", sudsTypeId := "s", category := "c", activityName := "ax",
    applies := true, dependentActivities := ["Y"] }

def adjY : Activity :=
  { id := "Y", sudsTypeId := "s", category := "c", activityName := "ay",
    applies := true, dependentActivities := [] }

/-- Claim C4 (amended) witness: with `adjX`'s dependents exactly `["Y"]`, the
output contains `adjX` immediately followed by `adjY`. -/
theorem c4_amended_dependent_nesting_witness :
    ∃ l1 l2, getDisplayActivities "s" [adjX, adjY] ["c"] [("c", ["ax", "ay"])] =
      l1 ++ (adjX, false) :: (adjY, true) :: l2 :=
  (c4_amended_dependent_nesting "s" [adjX, adjY] ["c"] [("c", ["ax", "ay"])] adjX adjY
    (by decide) (by decide) (by decide) (by decide) (by decide) (by decide)).1

/-- Concrete installation types with stored orders 0, 1, 2. -/
def sudsA : SudsType := { id := "A", name := "A", order := some 0 }

def sudsB : SudsType := { id := "B", name := "B", order := some 1 }

def sudsC : SudsType := { id := "C", name := "C", order := some 2 }

/-- Claim C6: moving the first element up or the last element down persists no
change (the handler returns before creating a batch); and for the three-item
list `[A, B, C]` with stored orders `0, 1, 2`, moving `B` up reorders to
`[B, A, C]` and issues a batch writing `order 0` for `B` and `order 1` for `A`
and nothing for `C`, whose stored order already equals its new position. -/
theorem c6_reorder_boundary_noops :
    (∀ (s : SudsType) (rest : List SudsType),
        handleMoveSudsType s.id "up" (s :: rest) = none) ∧
    (∀ (l : List SudsType) (sudsId : String) (i : Nat),
        l.findIdx? (fun s => s.id == sudsId) = some i → i + 1 = l.length →
          handleMoveSudsType sudsId "down" l = none) ∧
    handleMoveSudsType "B" "up" [sudsA, sudsB, sudsC] =
      some ([sudsB, sudsA, sudsC],
        [{ id := "B", order := 0 }, { id := "A", order := 1 }]) := by
  refine ⟨?_, ?_, by decide⟩
  · intro s rest
    rw [handleMoveSudsType]
    have : (s :: rest).findIdx? (fun t => t.id == s.id) = some 0 := by
      rw [List.findIdx?_cons]
      simp
    rw [this]
    simp
  · intro l sudsId i hfind hlast
    rw [handleMoveSudsType, hfind]
    have h2 : decide (i < l.length - 1) = false := by
      simp only [decide_eq_false_iff_not]
      omega
    simp [h2]

/-- Claim C10: `handleMoveSudsType` called with an id that is not present in
the supplied sequence returns at the `currentIndex === -1` guard, for any
direction: no batch is issued, the stored order documents are untouched, no
error is reported, and the in-memory list is unchanged. -/
theorem c10_missing_id_noop (sudsId : String) (direction : String)
    (localSudsTypes : List SudsType)
    (h : ∀ s ∈ localSudsTypes, s.id ≠ sudsId) :
    handleMoveSudsType sudsId direction localSudsTypes = none ∧
    ∀ (store : OrderStore) (commitOk : Bool),
      runHandleMoveSudsType sudsId direction localSudsTypes store commitOk =
        { store := store, errorReported := false, localSudsTypes := localSudsTypes } := by
  have hfind : localSudsTypes.findIdx? (fun s => s.id == sudsId) = none := by
    rw [List.findIdx?_eq_none_iff]
    intro x hx
    simpa using h x hx
  have hnone : handleMoveSudsType sudsId direction localSudsTypes = none := by
    rw [handleMoveSudsType, hfind]
  refine ⟨hnone, ?_⟩
  intro store commitOk
  rw [runHandleMoveSudsType, hnone]

/-- Claim C10 witness: a concrete missing id. -/
theorem c10_missing_id_noop_witness :
    handleMoveSudsType "Z" "up" [sudsA, sudsB, sudsC] = none ∧
    ∀ (store : OrderStore) (commitOk : Bool),
      runHandleMoveSudsType "Z" "up" [sudsA, sudsB, sudsC] store commitOk =
        { store := store, errorReported := false,
          localSudsTypes := [sudsA, sudsB, sudsC] } :=
  c10_missing_id_noop "Z" "up" [sudsA, sudsB, sudsC] (by decide)

/-- Claim C7 (code evaluation at the failing input): `handleMoveCategory` and
`handleMoveActivityColumn` lack the `currentIndex === -1` guard that
`handleMoveSudsType` has.  Moving a name that is NOT in the list toward the
end (`down` / `right`) therefore computes a swap at index `-1` — overwriting
slot 0 with `undefined` — and persists the corrupted list, instead of being a
silent no-op as the spec requires; only the `up` / `left` directions fall
through to the no-op branch. -/
theorem c7_missing_name_moves_write_corrupted_list :
    handleMoveCategory "X" "down" ["A", "B"] = some [none, some "B"] ∧
    handleMoveActivityColumn "c" "X" "right" [("c", ["A", "B"])] =
      some [("c", [none, some "B"])] ∧
    handleMoveCategory "X" "up" ["A", "B"] = none ∧
    handleMoveActivityColumn "c" "X" "left" [("c", ["A", "B"])] = none := by
  decide

/-- Claim C8: when the persistence layer rejects the committed batch or write,
the stored documents remain exactly as they were (all-or-nothing batch, from
the persistence contract), the failure is surfaced to the caller as an error
report whenever a write was actually issued, and the in-memory list is never
mutated by the handler. -/
theorem c8_batch_failure_atomicity :
    (∀ (sudsId direction : String) (localSudsTypes : List SudsType)
        (store : OrderStore),
      (runHandleMoveSudsType sudsId direction localSudsTypes store false).store =
          store ∧
      (runHandleMoveSudsType sudsId direction localSudsTypes store
          false).localSudsTypes = localSudsTypes ∧
      ∀ w, handleMoveSudsType sudsId direction localSudsTypes = some w →
        (runHandleMoveSudsType sudsId direction localSudsTypes store
          false).errorReported = true) ∧
    (∀ (category activityName direction : String) (m : DefinedNames),
      (runHandleMoveActivityColumn category activityName direction m false).1 =
          m.map (fun p => (p.1, p.2.map some)) ∧
      ∀ v, handleMoveActivityColumn category activityName direction m = some v →
        (runHandleMoveActivityColumn category activityName direction m false).2 =
          true) := by
  constructor
  · intro sudsId direction localSudsTypes store
    cases h : handleMoveSudsType sudsId direction localSudsTypes with
    | none =>
      refine ⟨?_, ?_, ?_⟩
      · simp [runHandleMoveSudsType, h]
      · simp [runHandleMoveSudsType, h]
      · intro w hw
        exact Option.noConfusion hw
    | some w =>
      refine ⟨?_, ?_, ?_⟩
      · simp [runHandleMoveSudsType, h, executeBatch]
      · simp [runHandleMoveSudsType, h]
      · intro w2 hw2
        simp [runHandleMoveSudsType, h]
  · intro category activityName direction m
    cases h : handleMoveActivityColumn category activityName direction m with
    | none =>
      refine ⟨?_, ?_⟩
      · simp [runHandleMoveActivityColumn, h]
      · intro v hv
        exact Option.noConfusion hv
    | some v =>
      refine ⟨?_, ?_⟩
      · simp [runHandleMoveActivityColumn, h, setDocValue]
      · intro v2 hv2
        simp [runHandleMoveActivityColumn, h]

/-- Claim C8 witness: a concrete rejected batch — moving `B` up issues writes,
the store is unchanged and the error is reported. -/
theorem c8_batch_failure_atomicity_witness :
    (runHandleMoveSudsType "B" "up" [sudsA, sudsB, sudsC]
        [("A", 0), ("B", 1), ("C", 2)] false).store = [("A", 0), ("B", 1), ("C", 2)] ∧
    (runHandleMoveSudsType "B" "up" [sudsA, sudsB, sudsC]
        [("A", 0), ("B", 1), ("C", 2)] false).errorReported = true := by
  have h := c8_batch_failure_atomicity.1 "B" "up" [sudsA, sudsB, sudsC]
    [("A", 0), ("B", 1), ("C", 2)]
  exact ⟨h.1, h.2.2
    ([sudsB, sudsA, sudsC], [{ id := "B", order := 0 }, { id := "A", order := 1 }])
    (by decide)⟩

theorem applyBatchOp_image (op : BatchOp) (store : List Activity) (a : Activity)
    (ha : a ∈ store) :
    ∃ b ∈ applyBatchOp store op, b.id = a.id ∧
      (a.applies = true → b.applies = true) := by
  cases op with
  | updateDeps i deps =>
    refine ⟨if a.id == i then { a with dependentActivities := deps } else a,
      List.mem_map_of_mem _ ha, ?_, ?_⟩
    · by_cases h : a.id == i <;> simp [h]
    · by_cases h : a.id == i <;> simp [h]
  | updateApplies i =>
    refine ⟨if a.id == i then { a with applies := true } else a,
      List.mem_map_of_mem _ ha, ?_, ?_⟩
    · by_cases h : a.id == i <;> simp [h]
    · by_cases h : a.id == i <;> simp [h]
  | create newId act =>
    exact ⟨a, List.mem_append_left _ ha, rfl, fun h => h⟩

theorem applyBatch_image (ops : List BatchOp) :
    ∀ (store : List Activity) (a : Activity), a ∈ store →
      ∃ b ∈ applyBatch store ops, b.id = a.id ∧
        (a.applies = true → b.applies = true) := by
  induction ops with
  | nil => exact fun store a ha => ⟨a, ha, rfl, fun h => h⟩
  | cons op ops ih =>
    intro store a ha
    obtain ⟨b, hb, hbid, hbap⟩ := applyBatchOp_image op store a ha
    obtain ⟨c, hc, hcid, hcap⟩ := ih (applyBatchOp store op) b hb
    exact ⟨c, hc, hcid.trans hbid, fun h => hcap (hbap h)⟩

theorem applyBatch_updateApplies (ops : List BatchOp) :
    ∀ (store : List Activity) (i : String), BatchOp.updateApplies i ∈ ops →
      (∃ a ∈ store, a.id = i) →
      ∃ b ∈ applyBatch store ops, b.id = i ∧ b.applies = true := by
  induction ops with
  | nil => intro store i h; cases h
  | cons op ops ih =>
    intro store i hmem ⟨a, ha, haid⟩
    rcases List.mem_cons.mp hmem with rfl | hmem
    · have hb : ({ a with applies := true } : Activity) ∈
          applyBatchOp store (BatchOp.updateApplies i) := by
        rw [applyBatchOp]
        have : (if a.id == i then { a with applies := true } else a) =
            { a with applies := true } := by
          simp [haid]
        exact this ▸ List.mem_map_of_mem _ ha
      obtain ⟨c, hc, hcid, hcap⟩ := applyBatch_image ops _ _ hb
      refine ⟨c, hc, ?_, hcap rfl⟩
      rw [hcid]
      exact haid
    · obtain ⟨b, hb, hbid, _⟩ := applyBatchOp_image op store a ha
      exact ih (applyBatchOp store op) i hmem ⟨b, hb, hbid.trans haid⟩

theorem depBatchOps_updateApplies_mem (acts : List Activity) :
    ∀ (sel freshIds : List String) (depId : String) (a : Activity),
      depId ∈ sel → acts.find? (fun x => x.id == depId) = some a →
      a.applies = false →
      BatchOp.updateApplies depId ∈ depBatchOps acts sel freshIds := by
  intro sel
  induction sel with
  | nil => intro freshIds depId a h; cases h
  | cons s rest ih =>
    intro freshIds depId a hmem hfind hap
    rw [depBatchOps]
    rcases List.mem_cons.mp hmem with rfl | hmem
    · rw [hfind]
      simp [hap]
    · split
      · split_ifs
        · exact List.mem_cons_of_mem _ (ih _ depId a hmem hfind hap)
        · exact ih _ depId a hmem hfind hap
      · dsimp only
        split_ifs
        · exact List.mem_cons_of_mem _ (ih _ depId a hmem hfind hap)
        · exact ih _ depId a hmem hfind hap

theorem depBatchOps_create_mem (acts : List Activity) :
    ∀ (sel freshIds : List String) (depId : String),
      depId ∈ sel → acts.find? (fun x => x.id == depId) = none →
      (jsSplitDash depId).length = 3 →
      ∃ newId, BatchOp.create newId
          (newDependentActivityData newId ((jsSplitDash depId).headD "")
            (((jsSplitDash depId).drop 1).headD "")
            (((jsSplitDash depId).drop 2).headD "")) ∈
        depBatchOps acts sel freshIds := by
  intro sel
  induction sel with
  | nil => intro freshIds depId h; cases h
  | cons s rest ih =>
    intro freshIds depId hmem hfind hsplit
    rw [depBatchOps]
    rcases List.mem_cons.mp hmem with rfl | hmem
    · rw [hfind]
      simp only [hsplit, beq_self_eq_true, if_pos]
      exact ⟨freshIds.headD "", List.mem_cons_self _ _⟩
    · split
      · split_ifs
        · obtain ⟨newId, hmem2⟩ := ih _ depId hmem hfind hsplit
          exact ⟨newId, List.mem_cons_of_mem _ hmem2⟩
        · exact ih _ depId hmem hfind hsplit
      · dsimp only
        split_ifs
        · obtain ⟨newId, hmem2⟩ := ih _ depId hmem hfind hsplit
          exact ⟨newId, List.mem_cons_of_mem _ hmem2⟩
        · exact ih _ depId hmem hfind hsplit

theorem handleSaveDependencies_ops_shape (current : CurrentActivity)
    (sel : List String) (acts : List Activity) (freshIds : List String)
    (ops : List BatchOp)
    (h : handleSaveDependencies (some current) sel acts freshIds = some ops) :
    ∃ op0 fresh0, ops = op0 :: depBatchOps acts sel fresh0 := by
  rw [handleSaveDependencies] at h
  cases hcid : current.id with
  | some i =>
    rw [hcid] at h
    exact ⟨_, freshIds, (Option.some_inj.mp h).symm⟩
  | none =>
    rw [hcid] at h
    exact ⟨_, freshIds.tail, (Option.some_inj.mp h).symm⟩

/-- Existing primary record for the C9 scenarios. -/
def savePrimary : Activity :=
  { id := "p", sudsTypeId := "s", category := "c", activityName := "a",
    applies := true, dependentActivities := [] }

/-- Existing `applies = false` record referenced as a dependent in the C9
witness. -/
def saveDepOff : Activity :=
  { id := "q", sudsTypeId := "s", category := "c", activityName := "b",
    applies := false, dependentActivities := [] }

/-- Claim C9 (counterexample): saving a dependency on an id with no existing
record creates the new record under a FRESH auto-generated id (`f1`), not
under the referenced id, so after the commit the id stored in the saved
`dependentActivities` set (`s2-CatY-ActZ`) resolves to NO record at all —
refuting the claim that every saved id refers to an `applies = true` record. -/
theorem c9_counterexample :
    handleSaveDependencies
        (some { sudsId := "s", activityName := "a", category := "c", id := some "p" })
        ["s2-CatY-ActZ"] [savePrimary] ["f1"] =
      some [BatchOp.updateDeps "p" ["s2-CatY-ActZ"],
        BatchOp.create "f1" (newDependentActivityData "f1" "s2" "CatY" "ActZ")] ∧
    (applyBatch [savePrimary]
        [BatchOp.updateDeps "p" ["s2-CatY-ActZ"],
          BatchOp.create "f1" (newDependentActivityData "f1" "s2" "CatY" "ActZ")]).find?
        (fun a => a.id == "s2-CatY-ActZ") = none ∧
    (∃ b ∈ applyBatch [savePrimary]
        [BatchOp.updateDeps "p" ["s2-CatY-ActZ"],
          BatchOp.create "f1" (newDependentActivityData "f1" "s2" "CatY" "ActZ")],
      "s2-CatY-ActZ" ∈ b.dependentActivities) := by
  decide

/-- Claim C9 (amended): after `handleSaveDependencies` commits its batch, every
saved id that resolved to an EXISTING record refers to a record with
`applies = true` (an existing `applies = false` record is force-updated inside
the same batch); and for every saved id with no existing record whose text
splits into exactly three dash-separated parts, a brand-new record with
`applies = true` and the fields decoded from the id is created in the same
batch — but under a fresh auto-generated document id, so the saved id itself
still resolves to no record (see the counterexample); saved ids that neither
resolve nor split into three parts produce no write at all. -/
theorem c9_amended_force_activation (current : CurrentActivity)
    (sel : List String) (acts : List Activity) (freshIds : List String)
    (ops : List BatchOp)
    (hops : handleSaveDependencies (some current) sel acts freshIds = some ops) :
    (∀ depId ∈ sel, ∀ a, acts.find? (fun x => x.id == depId) = some a →
      ∃ b ∈ applyBatch acts ops, b.id = depId ∧ b.applies = true) ∧
    (∀ depId ∈ sel, acts.find? (fun x => x.id == depId) = none →
      (jsSplitDash depId).length = 3 →
      ∃ newId act, BatchOp.create newId act ∈ ops ∧ act.applies = true ∧
        act.sudsTypeId = (jsSplitDash depId).headD "" ∧
        act.category = ((jsSplitDash depId).drop 1).headD "" ∧
        act.activityName = ((jsSplitDash depId).drop 2).headD "" ∧
        act.dependentActivities = []) := by
  obtain ⟨op0, fresh0, rfl⟩ :=
    handleSaveDependencies_ops_shape current sel acts freshIds ops hops
  constructor
  · intro depId hdep a hfind
    have hamem : a ∈ acts := List.mem_of_find?_eq_some hfind
    have haid : a.id = depId := by
      have := List.find?_some hfind
      simpa using this
    by_cases hap : a.applies = true
    · obtain ⟨b, hb, hbid, hbap⟩ := applyBatch_image _ acts a hamem
      exact ⟨b, hb, hbid.trans haid, hbap hap⟩
    · have hap2 : a.applies = false := by simpa using hap
      have hup : BatchOp.updateApplies depId ∈
          depBatchOps acts sel fresh0 :=
        depBatchOps_updateApplies_mem acts sel fresh0 depId a hdep hfind hap2
      exact applyBatch_updateApplies _ acts depId
        (List.mem_cons_of_mem _ hup) ⟨a, hamem, haid⟩
  · intro depId hdep hfind hsplit
    obtain ⟨newId, hmem⟩ :=
      depBatchOps_create_mem acts sel fresh0 depId hdep hfind hsplit
    refine ⟨newId, _, List.mem_cons_of_mem _ hmem, rfl, rfl, rfl, rfl, rfl⟩

/-- Claim C9 (amended) witness: a saved dependency on an existing
`applies = false` record yields a post-commit record with that id and
`applies = true`. -/
theorem c9_amended_force_activation_witness :
    ∃ ops, handleSaveDependencies
        (some { sudsId := "s", activityName := "a", category := "c", id := some "p" })
        ["q"] [savePrimary, saveDepOff] [] = some ops ∧
      ∃ b ∈ applyBatch [savePrimary, saveDepOff] ops, b.id = "q" ∧ b.applies = true := by
  refine ⟨[BatchOp.updateDeps "p" ["q"], BatchOp.updateApplies "q"], by decide, ?_⟩
  have h := c9_amended_force_activation
    { sudsId := "s", activityName := "a", category := "c", id := some "p" }
    ["q"] [savePrimary, saveDepOff] []
    [BatchOp.updateDeps "p" ["q"], BatchOp.updateApplies "q"] (by decide)
  exact h.1 "q" (by decide) saveDepOff (by decide)

/-- Claim C6 witness: both boundary no-ops at the concrete three-item list. -/
theorem c6_reorder_boundary_noops_witness :
    handleMoveSudsType sudsA.id "up" (sudsA :: [sudsB, sudsC]) = none ∧
    handleMoveSudsType "C" "down" [sudsA, sudsB, sudsC] = none := by
  refine ⟨c6_reorder_boundary_noops.1 sudsA [sudsB, sudsC], ?_⟩
  exact c6_reorder_boundary_noops.2.1 [sudsA, sudsB, sudsC] "C" 2 (by decide) (by decide)
